import Mathlib

/-!
# Verification of `rotab` — an IPv4 longest-prefix-match routing table

Shallow embedding of `src/src/lib.rs`: a binary trie keyed by address bits,
with `insert_range` deriving a prefix from a pair of range endpoints and
`lookup` returning the destination of the deepest terminal node reached
while walking a query address's bits.

Rust `u32` values are embedded as `Nat` (all values produced by the parser
are `< 2^32`); the bit vectors (`Vec<u8>` of 0/1 values in the source) are
`List Nat`.  Mutation of the trie through `Rc<RefCell<_>>` is embedded as
explicit state passing: `insert_range` and `lookup` return the table that
results from the call alongside the `Result` value.
-/

namespace Rotab

/-- Trie vertex, from `struct Node` in the source: two child slots
(`edges[0]`, `edges[1]`), a terminal flag and an optional destination. -/
inductive Node where
  | mk (edge0 : Option Node) (edge1 : Option Node) ( is_terminal : Bool) (dest : Option Nat)

/-- `Node::new()`: no children, not terminal, no destination. -/
def Node.new : Node := .mk none none false none

def Node.edge0 : Node → Option Node
  | .mk a _ _ _ => a

def Node.edge1 : Node → Option Node
  | .mk _ b _ _ => b

def Node.is_terminal : Node → Bool
  | .mk _ _ t _ => t

def Node.dest : Node → Option Nat
  | .mk _ _ _ d => d

/-- `node.edges[bit_idx]`.  In the source the index is always the bit value
0 or 1; all bit vectors produced by the program satisfy this. -/
def Node.edge (n : Node) (b : Nat) : Option Node :=
  if b = 0 then n.edge0 else n.edge1

/-- Write child slot `b` (the assignment `node.edges[bit_idx] = Some(...)`). -/
def Node.setEdge (n : Node) (b : Nat) (c : Node) : Node :=
  if b = 0 then .mk (some c) n.edge1 n.is_terminal n.dest
  else .mk n.edge0 (some c) n.is_terminal n.dest

/-- Number of nodes in the (sub)trie rooted at `n`. -/
def Node.size : Node → Nat
  | .mk e0 e1 _ _ =>
    1 + (match e0 with | none => 0 | some c => c.size)
      + (match e1 with | none => 0 | some c => c.size)

/-- `struct Table`: owns the root node (called `start` in the source). -/
structure Table where
  start : Node

/-- `Table::new()`. -/
def Table.new : Table := ⟨Node.new⟩

/-- `std::net::AddrParseError`: the single error kind of the API. -/
inductive AddrParseError where
  | mk
deriving DecidableEq

/-- The loop body of `ip_to_bit_vec` and of `prefix`: extract bit `pow`
(counting from the least-significant bit) of `ip`, as `0` or `1`
(`(ip & 2^pow) >> pow` in the source). -/
def bitOf (ip pow : Nat) : Nat :=
  (Nat.land ip (2 ^ pow)) >>> pow

/-- `Table::ip_to_bit_vec` after address parsing: the 32 bits of `ip`,
most-significant first (`pow = 32 - i - 1` for `i = 0.. 32`). -/
def ipToBitVec (ip : Nat) : List Nat :=
  (List.range 32).map (fun i => bitOf ip (32 - i - 1))

/-- `u32::leading_zeros` for values below `2^32`: the number of leading
positions (most-significant first) whose bit is zero. -/
def leadingZeros32 (x : Nat) : Nat :=
  ((List.range 32).takeWhile (fun i => bitOf x (32 - i - 1) == 0)).length

/-- `Table::prefix` after parsing the two endpoint addresses:
`prefix_length = (start ^ end).leading_zeros()` leading bits of `start`,
most-significant first. -/
def prefixBits (s e : Nat) : List Nat :=
  (List.range (leadingZeros32 (Nat.xor s e))).map (fun i => bitOf s (32 - i - 1))

/-- Modelled from the spec: the IPv4 address parser used by the source
(`Ipv4Addr::from_str`, standard-library code that is not part of this
repository).  Per the spec an address's textual form is a "standard IPv4
dotted-quad (`a.b.c.d`, each octet 0–255)": here, four dot-separated
non-empty groups of at most three decimal digits, each of value at most
255.  Splitting the character list at every dot: -/
def splitDots : List Char → List (List Char)
  | [] => [[]]
  | c :: r =>
    if c = '.' then [] :: splitDots r
    else
      match splitDots r with
      | [] => [[c]]
      | g :: gs => (c :: g) :: gs

/-- Modelled from the spec: the numeric value of one decimal-digit
character, if it is one. -/
def digitVal (c : Char) : Option Nat :=
  if '0' ≤ c ∧ c ≤ '9' then some (c.toNat - 48) else none

/-- Modelled from the spec: the value of one dotted-quad group — a
non-empty string of at most three decimal digits whose value is at most
255. -/
def octetVal (g : List Char) : Option Nat :=
  if g.length = 0 ∨ 3 < g.length then none
  else
    match g.mapM digitVal with
    | none => none
    | some ds =>
      let v := ds.foldl (fun a d => 10 * a + d) 0
      if v ≤ 255 then some v else none

/-- Modelled from the spec: `Ipv4Addr::from_str` followed by `to_bits` —
the 32-bit numeric value of a syntactically valid dotted-quad address
string, `none` on a malformed string. -/
def parseIpv4 (s : String) : Option Nat :=
  match splitDots s.data with
  | [a, b, c, d] =>
    match octetVal a, octetVal b, octetVal c, octetVal d with
    | some va, some vb, some vc, some vd =>
      some (((va * 256 + vb) * 256 + vc) * 256 + vd)
    | _, _, _, _ => none
  | _ => none

/-- The walk of `insert_range`'s loop followed by the two assignments at
its end: descend the trie along `p`, creating missing nodes, then set
`dest = Some d` and `is_terminal = true` on the node the walk ends at. -/
def insertLoop (n : Node) (p : List Nat) (d : Nat) : Node :=
  match p with
  | [] => .mk n.edge0 n.edge1 true (some d)
  | b :: r =>
    match n.edge b with
    | some c => n.setEdge b (insertLoop c r d)
    | none => n.setEdge b (insertLoop Node.new r d)

/-- The walk of `insert_range`'s loop alone (no terminal write): the state
the trie is left in when parsing of `dest` fails after the walk. -/
def insertWalk (n : Node) (p : List Nat) : Node :=
  match p with
  | [] => n
  | b :: r =>
    match n.edge b with
    | some c => n.setEdge b (insertWalk c r)
    | none => n.setEdge b (insertWalk Node.new r)

/-- `Table::insert_range`.  Parsing of `start` or `end` fails before any
mutation; parsing of `dest` fails only after the walk has already created
the nodes along the prefix path (the source parses `dest` after the loop),
so in that case the returned table contains the walked path without the
terminal marking. -/
def Table.insert_range (t : Table) (start e dest : String) :
    Except AddrParseError Unit × Table :=
  match parseIpv4 start, parseIpv4 e with
  | some sn, some en =>
    match parseIpv4 dest with
    | some dn => (.ok (), ⟨insertLoop t.start (prefixBits sn en) dn⟩)
    | none => (.error .mk, ⟨insertWalk t.start (prefixBits sn en)⟩)
  | _, _ => (.error .mk, t)

/-- The loop of `Table::lookup`: walk the query's bits from the root,
updating `dst` at every terminal child reached, stopping at the first
missing edge. -/
def lookupLoop (n : Node) (bits : List Nat) (dst : Option Nat) : Option Nat :=
  match bits with
  | [] => dst
  | b :: rest =>
    match n.edge b with
    | none => dst
    | some c => lookupLoop c rest (if c.is_terminal then c.dest else dst)

/-- `Table::lookup`.  Takes `&self` in the source (no mutation); the
returned table is the state after the call. -/
def Table.lookup (t : Table) (ip : String) :
    Except AddrParseError (Option Nat) × Table :=
  match parseIpv4 ip with
  | none => (.error .mk, t)
  | some q =>
    (.ok (lookupLoop t.start (ipToBitVec q)
      (if t.start.is_terminal then t.start.dest else none)), t)

/-! ## Specification-side definitions -/

/-- The node reached from `n` by following the path `p`, if every edge on
the way exists. -/
def nodeAt (n : Node) : List Nat → Option Node
  | [] => some n
  | b :: r =>
    match n.edge b with
    | none => none
    | some c => nodeAt c r

/-- The destination recorded at the end of path `p`, when the path exists
and ends at a terminal node. -/
def pathGet (n : Node) : List Nat → Option Nat
  | [] => if n.is_terminal then n.dest else none
  | b :: r =>
    match n.edge b with
    | none => none
    | some c => pathGet c r

/-- The `is_terminal` flag of the node at path `p` (`false` when the path
does not exist). -/
def termD (n : Node) (p : List Nat) : Bool :=
  ((nodeAt n p).map Node.is_terminal).getD false

/-- The `dest` field of the node at path `p` (`none` when the path does
not exist). -/
def destD (n : Node) (p : List Nat) : Option Nat :=
  (nodeAt n p).bind Node.dest

/-- All entries of a bit vector are bit values. -/
def BitsValid (p : List Nat) : Prop := ∀ b ∈ p, b < 2

/-- The node invariant of the spec, over every node of the trie:
`dest.is_some() == is_terminal`. -/
def Node.wfAll (n : Node) : Prop :=
  ∀ p m, BitsValid p → nodeAt n p = some m → m.dest.isSome = m.is_terminal

/-- The destinations of the terminal nodes strictly below `n` on the walk
along `bits`, in the order the walk visits them. -/
def matchesAlong (n : Node) : List Nat → List Nat
  | [] => []
  | b :: rest =>
    match n.edge b with
    | none => []
    | some c => (if c.is_terminal then c.dest.toList else []) ++ matchesAlong c rest

/-- Last element of `l` if there is one, else the default `d0`. -/
def lastOr (l : List Nat) (d0 : Option Nat) : Option Nat :=
  match l.getLast? with
  | some x => some x
  | none => d0

/-- The destination the stored-routes map associates with the exact prefix
`p` after inserting `routes` (each a parsed `(start, end, dest)` triple) in
order: the destination of the last route whose range reduces to `p`. -/
def storedDest (routes : List (Nat × Nat × Nat)) (p : List Nat) : Option Nat :=
  routes.foldl (fun acc r => if prefixBits r.1 r.2.1 = p then some r.2.2 else acc) none

/-- The table obtained from `Table::new` by inserting each parsed route in
order. -/
def buildTable (routes : List (Nat × Nat × Nat)) : Table :=
  routes.foldl (fun t r => ⟨insertLoop t.start (prefixBits r.1 r.2.1) r.2.2⟩) Table.new

/-- The table obtained from `Table::new` by an `insert_range` call for each
route string triple in order. -/
def buildTableS (routes : List (String × String × String)) : Table :=
  routes.foldl (fun t r => (t.insert_range r.1 r.2.1 r.2.2).2) Table.new

/-- The parsed values of a list of route string triples; `some` exactly
when every `insert_range` call in the sequence succeeds. -/
def routeVals : List (String × String × String) → Option (List (Nat × Nat × Nat))
  | [] => some []
  | r :: rs =>
    match parseIpv4 r.1, parseIpv4 r.2.1, parseIpv4 r.2.2, routeVals rs with
    | some a, some b, some c, some vs => some ((a, b, c) :: vs)
    | _, _, _, _ => none

/-- Tables reachable from `Table::new` by any sequence of `insert_range`
calls (successful or failing) and `lookup` calls. -/
inductive Reachable : Table → Prop where
  | new : Reachable Table.new
  | ins (t : Table) (s e d : String) : Reachable t → Reachable (t.insert_range s e d).2
  | look (t : Table) (q : String) : Reachable t → Reachable (t.lookup q).2

instance : DecidableEq (Except AddrParseError (Option Nat)) := fun a b =>
  match a, b with
  | .ok x, .ok y => if h : x = y then .isTrue (by rw [h]) else .isFalse (by simp [h])
  | .error x, .error y => .isTrue (by cases x; cases y; rfl)
  | .ok _, .error _ => .isFalse (by simp)
  | .error _, .ok _ => .isFalse (by simp)

/-! ## Bit-level lemmas -/

theorem bitOf_eq_testBit (ip pow : Nat) : bitOf ip pow = (ip.testBit pow).toNat := by
  unfold bitOf
  show (ip &&& 2 ^ pow) >>> pow = _
  rw [Nat.and_two_pow, Nat.shiftRight_eq_div_pow,
    Nat.mul_div_cancel _ (Nat.pos_pow_of_pos pow (by norm_num))]

theorem bitOf_lt_two (ip pow : Nat) : bitOf ip pow < 2 := by
  rw [bitOf_eq_testBit]
  cases ip.testBit pow <;> simp

theorem ipToBitVec_length (ip : Nat) : (ipToBitVec ip).length = 32 := by
  simp [ipToBitVec]

theorem ipToBitVec_valid (ip : Nat) : BitsValid (ipToBitVec ip) := by
  intro b hb
  simp only [ipToBitVec, List.mem_map] at hb
  obtain ⟨i, _, rfl⟩ := hb
  exact bitOf_lt_two _ _

theorem leadingZeros32_le (x : Nat) : leadingZeros32 x ≤ 32 := by
  unfold leadingZeros32
  calc ((List.range 32).takeWhile _).length ≤ (List.range 32).length :=
        (List.takeWhile_sublist _).length_le
    _ = 32 := by simp

theorem prefixBits_valid (s e : Nat) : BitsValid (prefixBits s e) := by
  intro b hb
  simp only [prefixBits, List.mem_map] at hb
  obtain ⟨i, _, rfl⟩ := hb
  exact bitOf_lt_two _ _

theorem prefixBits_length (s e : Nat) :
    (prefixBits s e).length = leadingZeros32 (Nat.xor s e) := by
  simp [prefixBits]

theorem prefixBits_eq_take (s e : Nat) :
    prefixBits s e = (ipToBitVec s).take (leadingZeros32 (Nat.xor s e)) := by
  unfold prefixBits ipToBitVec
  rw [← List.map_take, List.take_range,
    Nat.min_eq_left (leadingZeros32_le (Nat.xor s e))]

/-! ## Node accessor lemmas -/

theorem Node.edge_new (b : Nat) : Node.new.edge b = none := by
  unfold Node.edge Node.new Node.edge0 Node.edge1
  split <;> rfl

theorem Node.edge_mk_fields (n : Node) (t : Bool) (d : Option Nat) (b : Nat) :
    (Node.mk n.edge0 n.edge1 t d).edge b = n.edge b := by
  unfold Node.edge Node.edge0 Node.edge1
  split <;> rfl

theorem Node.edge_setEdge_same (n : Node) (b : Nat) (c : Node) :
    (n.setEdge b c).edge b = some c := by
  unfold Node.setEdge Node.edge Node.edge0 Node.edge1
  by_cases h : b = 0 <;> simp [h]

theorem Node.edge_setEdge_other (n : Node) (b b' : Nat) (c : Node)
    (hb : b < 2) (hb' : b' < 2) (hne : b' ≠ b) :
    (n.setEdge b c).edge b' = n.edge b' := by
  unfold Node.setEdge Node.edge Node.edge0 Node.edge1
  interval_cases b <;> interval_cases b' <;> simp_all

theorem Node.is_terminal_setEdge (n : Node) (b : Nat) (c : Node) :
    (n.setEdge b c).is_terminal = n.is_terminal := by
  by_cases h : b = 0 <;> simp [Node.setEdge, h, Node.is_terminal]

theorem Node.dest_setEdge (n : Node) (b : Nat) (c : Node) :
    (n.setEdge b c).dest = n.dest := by
  by_cases h : b = 0 <;> simp [Node.setEdge, h, Node.dest]

/-! ## Path lemmas -/

theorem nodeAt_new (p : List Nat) : p ≠ [] → nodeAt Node.new p = none := by
  cases p with
  | nil => intro h; exact absurd rfl h
  | cons b r => intro _; simp [nodeAt, Node.edge_new]

theorem termD_new (p : List Nat) : termD Node.new p = false := by
  cases p with
  | nil => rfl
  | cons b r => simp [termD, nodeAt_new (b :: r) (by simp)]

theorem destD_new (p : List Nat) : destD Node.new p = none := by
  cases p with
  | nil => rfl
  | cons b r => simp [destD, nodeAt_new (b :: r) (by simp)]

theorem pathGet_eq (n : Node) (p : List Nat) :
    pathGet n p = if termD n p then destD n p else none := by
  induction p generalizing n with
  | nil => simp [pathGet, termD, destD, nodeAt]
  | cons b r ih =>
    rcases h : n.edge b with _ | c <;>
      simp [pathGet, termD, destD, nodeAt, h, ih]

theorem termD_mk_fields (n : Node) (t : Bool) (d : Option Nat) (b : Nat) (r : List Nat) :
    termD (Node.mk n.edge0 n.edge1 t d) (b :: r) = termD n (b :: r) := by
  simp only [termD, nodeAt, Node.edge_mk_fields]

theorem destD_mk_fields (n : Node) (t : Bool) (d : Option Nat) (b : Nat) (r : List Nat) :
    destD (Node.mk n.edge0 n.edge1 t d) (b :: r) = destD n (b :: r) := by
  simp only [destD, nodeAt, Node.edge_mk_fields]

theorem termD_nil (n : Node) : termD n [] = n.is_terminal := rfl

theorem destD_nil (n : Node) : destD n [] = n.dest := rfl

theorem termD_cons (n : Node) (b : Nat) (r : List Nat) :
    termD n (b :: r) =
      match n.edge b with
      | none => false
      | some c => termD c r := by
  rcases h : n.edge b with _ | c <;> simp [termD, nodeAt, h]

theorem destD_cons (n : Node) (b : Nat) (r : List Nat) :
    destD n (b :: r) =
      match n.edge b with
      | none => none
      | some c => destD c r := by
  rcases h : n.edge b with _ | c <;> simp [destD, nodeAt, h]

/-- Frame property of the insert walk-and-mark: at every path other than
the inserted prefix, the terminal flag and the destination are unchanged. -/
theorem insertLoop_frame (P : List Nat) (n : Node) (d : Nat) (p : List Nat)
    (hP : BitsValid P) (hp : BitsValid p) (hne : p ≠ P) :
    termD (insertLoop n P d) p = termD n p ∧
      destD (insertLoop n P d) p = destD n p := by
  induction P generalizing n p with
  | nil =>
    cases p with
    | nil => exact absurd rfl hne
    | cons b r =>
      simp only [insertLoop, termD_mk_fields, destD_mk_fields]
      exact ⟨trivial, trivial⟩
  | cons a R ih =>
    have ha : a < 2 := hP a (by simp)
    have hRv : BitsValid R := fun x hx => hP x (by simp [hx])
    cases p with
    | nil =>
      rcases h : n.edge a with _ | c <;>
        simp only [insertLoop, h] <;>
        exact ⟨by simp [termD_nil, Node.is_terminal_setEdge],
               by simp [destD_nil, Node.dest_setEdge]⟩
    | cons b r =>
      have hb : b < 2 := hp b (by simp)
      have hrv : BitsValid r := fun x hx => hp x (by simp [hx])
      by_cases hba : b = a
      · subst hba
        have hr : r ≠ R := fun hr => hne (by rw [hr])
        rcases h : n.edge b with _ | c
        · simp only [insertLoop, h, termD_cons, destD_cons, Node.edge_setEdge_same]
          exact ⟨by rw [(ih Node.new r hRv hrv hr).1, termD_new],
                 by rw [(ih Node.new r hRv hrv hr).2, destD_new]⟩
        · simp only [insertLoop, h, termD_cons, destD_cons, Node.edge_setEdge_same]
          exact ⟨(ih c r hRv hrv hr).1, (ih c r hRv hrv hr).2⟩
      · rcases h : n.edge a with _ | c <;>
          simp only [insertLoop, h, termD_cons, destD_cons,
            Node.edge_setEdge_other n a b _ ha hb hba] <;>
          exact ⟨trivial, trivial⟩

/-- At the endpoint of the inserted prefix, the insert marks the node as
terminal and records the destination. -/
theorem insertLoop_at_self (P : List Nat) (n : Node) (d : Nat) :
    termD (insertLoop n P d) P = true ∧ destD (insertLoop n P d) P = some d := by
  induction P generalizing n with
  | nil => exact ⟨rfl, rfl⟩
  | cons a R ih =>
    rcases h : n.edge a with _ | c <;>
      simp only [insertLoop, h, termD_cons, destD_cons, Node.edge_setEdge_same] <;>
      exact ih _

/-- The failed-insert walk leaves every node's terminal flag and
destination unchanged (it only creates fresh, non-terminal nodes). -/
theorem insertWalk_frame (P : List Nat) (n : Node) (p : List Nat)
    (hP : BitsValid P) (hp : BitsValid p) :
    termD (insertWalk n P) p = termD n p ∧
      destD (insertWalk n P) p = destD n p := by
  induction P generalizing n p with
  | nil => exact ⟨rfl, rfl⟩
  | cons a R ih =>
    have ha : a < 2 := hP a (by simp)
    have hRv : BitsValid R := fun x hx => hP x (by simp [hx])
    cases p with
    | nil =>
      rcases h : n.edge a with _ | c <;>
        simp only [insertWalk, h] <;>
        exact ⟨by simp [termD_nil, Node.is_terminal_setEdge],
               by simp [destD_nil, Node.dest_setEdge]⟩
    | cons b r =>
      have hb : b < 2 := hp b (by simp)
      have hrv : BitsValid r := fun x hx => hp x (by simp [hx])
      by_cases hba : b = a
      · subst hba
        rcases h : n.edge b with _ | c
        · simp only [insertWalk, h, termD_cons, destD_cons, Node.edge_setEdge_same]
          exact ⟨by rw [(ih Node.new r hRv hrv).1, termD_new],
                 by rw [(ih Node.new r hRv hrv).2, destD_new]⟩
        · simp only [insertWalk, h, termD_cons, destD_cons, Node.edge_setEdge_same]
          exact ⟨(ih c r hRv hrv).1, (ih c r hRv hrv).2⟩
      · rcases h : n.edge a with _ | c <;>
          simp only [insertWalk, h, termD_cons, destD_cons,
            Node.edge_setEdge_other n a b _ ha hb hba] <;>
          exact ⟨trivial, trivial⟩

theorem nodeAt_cons (n : Node) (b : Nat) (r : List Nat) :
    nodeAt n (b :: r) =
      match n.edge b with
      | none => none
      | some c => nodeAt c r := rfl

/-- A node present before an insert is still present after it. -/
theorem nodeAt_isSome_insertLoop (P : List Nat) (n : Node) (d : Nat) (p : List Nat)
    (hP : BitsValid P) (hp : BitsValid p) :
    (nodeAt n p).isSome = true → (nodeAt (insertLoop n P d) p).isSome = true := by
  induction P generalizing n p with
  | nil =>
    intro hs
    cases p with
    | nil => rfl
    | cons b r =>
      simp only [insertLoop, nodeAt_cons, Node.edge_mk_fields]
      simpa only [nodeAt_cons] using hs
  | cons a R ih =>
    intro hs
    have ha : a < 2 := hP a (by simp)
    have hRv : BitsValid R := fun x hx => hP x (by simp [hx])
    cases p with
    | nil => rfl
    | cons b r =>
      have hb : b < 2 := hp b (by simp)
      have hrv : BitsValid r := fun x hx => hp x (by simp [hx])
      by_cases hba : b = a
      · subst hba
        rcases h : n.edge b with _ | c
        · rw [nodeAt_cons, h] at hs
          simp at hs
        · simp only [insertLoop, h, nodeAt_cons, Node.edge_setEdge_same]
          rw [nodeAt_cons, h] at hs
          exact ih c r hRv hrv hs
      · rcases h : n.edge a with _ | c <;>
          simp only [insertLoop, h, nodeAt_cons,
            Node.edge_setEdge_other n a b _ ha hb hba] <;>
          simpa only [nodeAt_cons] using hs

/-- A node present before a failed-insert walk is still present after it. -/
theorem nodeAt_isSome_insertWalk (P : List Nat) (n : Node) (p : List Nat)
    (hP : BitsValid P) (hp : BitsValid p) :
    (nodeAt n p).isSome = true → (nodeAt (insertWalk n P) p).isSome = true := by
  induction P generalizing n p with
  | nil => exact fun hs => hs
  | cons a R ih =>
    intro hs
    have ha : a < 2 := hP a (by simp)
    have hRv : BitsValid R := fun x hx => hP x (by simp [hx])
    cases p with
    | nil => rfl
    | cons b r =>
      have hb : b < 2 := hp b (by simp)
      have hrv : BitsValid r := fun x hx => hp x (by simp [hx])
      by_cases hba : b = a
      · subst hba
        rcases h : n.edge b with _ | c
        · rw [nodeAt_cons, h] at hs
          simp at hs
        · simp only [insertWalk, h, nodeAt_cons, Node.edge_setEdge_same]
          rw [nodeAt_cons, h] at hs
          exact ih c r hRv hrv hs
      · rcases h : n.edge a with _ | c <;>
          simp only [insertWalk, h, nodeAt_cons,
            Node.edge_setEdge_other n a b _ ha hb hba] <;>
          simpa only [nodeAt_cons] using hs

/-- After a failed-insert walk along `P`, every node on the walked path
exists (the intermediate nodes have been created). -/
theorem nodeAt_insertWalk_path (P : List Nat) (n : Node) :
    ∀ p ∈ P.inits, (nodeAt (insertWalk n P) p).isSome = true := by
  induction P generalizing n with
  | nil =>
    intro p hp
    rw [show ([] : List Nat).inits = [[]] from rfl, List.mem_singleton] at hp
    subst hp
    rfl
  | cons a R ih =>
    intro p hp
    rw [List.inits_cons, List.mem_cons] at hp
    rcases hp with rfl | hp
    · rfl
    · rw [List.mem_map] at hp
      obtain ⟨q, hq, rfl⟩ := hp
      rcases h : n.edge a with _ | c <;>
        simp only [insertWalk, h, nodeAt_cons, Node.edge_setEdge_same] <;>
        exact ih _ q hq

/-! ## Well-formedness (the node invariant) -/

theorem wfAll_new : Node.new.wfAll := by
  intro p m hp hm
  cases p with
  | nil =>
    simp only [nodeAt, Option.some_inj] at hm
    subst hm
    rfl
  | cons b r =>
    rw [nodeAt_cons, Node.edge_new] at hm
    cases hm

theorem wfAll_insertLoop (P : List Nat) (n : Node) (d : Nat)
    (hP : BitsValid P) (hwf : n.wfAll) : (insertLoop n P d).wfAll := by
  intro p m hp hm
  have hterm : m.is_terminal = termD (insertLoop n P d) p := by simp [termD, hm]
  have hdest : m.dest = destD (insertLoop n P d) p := by simp [destD, hm]
  by_cases hpP : p = P
  · subst hpP
    rw [hterm, hdest, (insertLoop_at_self p n d).1, (insertLoop_at_self p n d).2]
    rfl
  · obtain ⟨h1, h2⟩ := insertLoop_frame P n d p hP hp hpP
    rw [hterm, hdest, h1, h2]
    rcases h : nodeAt n p with _ | m0
    · simp [termD, destD, h]
    · have hw := hwf p m0 hp h
      simp [termD, destD, h, hw]

theorem wfAll_insertWalk (P : List Nat) (n : Node)
    (hP : BitsValid P) (hwf : n.wfAll) : (insertWalk n P).wfAll := by
  intro p m hp hm
  have hterm : m.is_terminal = termD (insertWalk n P) p := by simp [termD, hm]
  have hdest : m.dest = destD (insertWalk n P) p := by simp [destD, hm]
  obtain ⟨h1, h2⟩ := insertWalk_frame P n p hP hp
  rw [hterm, hdest, h1, h2]
  rcases h : nodeAt n p with _ | m0
  · simp [termD, destD, h]
  · have hw := hwf p m0 hp h
    simp [termD, destD, h, hw]

theorem wfAll_child (n : Node) (b : Nat) (c : Node)
    (hwf : n.wfAll) (hb : b < 2) (hc : n.edge b = some c) : c.wfAll := by
  intro p m hp hm
  refine hwf (b :: p) m ?_ ?_
  · intro x hx
    rw [List.mem_cons] at hx
    rcases hx with rfl | hx
    · exact hb
    · exact hp x hx
  · rw [nodeAt_cons, hc]
    exact hm

/-! ## Node counting -/

def osize : Option Node → Nat
  | none => 0
  | some c => c.size

theorem Node.size_mk (e0 e1 : Option Node) (t : Bool) (d : Option Nat) :
    (Node.mk e0 e1 t d).size = 1 + osize e0 + osize e1 := by
  cases e0 <;> cases e1 <;> rfl

theorem Node.size_eq (n : Node) : n.size = 1 + osize n.edge0 + osize n.edge1 := by
  cases n with
  | mk e0 e1 t d => rw [Node.size_mk]; rfl

theorem Node.size_new : Node.new.size = 1 := rfl

theorem osize_none : osize none = 0 := rfl

theorem osize_some (c : Node) : osize (some c) = c.size := rfl

theorem Node.size_setEdge_zero (n : Node) (c : Node) :
    (n.setEdge 0 c).size = 1 + c.size + osize n.edge1 := by
  simp [Node.setEdge, Node.size_mk, osize]

theorem Node.size_setEdge_one (n : Node) (b : Nat) (c : Node) (hb : b ≠ 0) :
    (n.setEdge b c).size = 1 + osize n.edge0 + c.size := by
  simp [Node.setEdge, hb, Node.size_mk, osize]

theorem size_insertLoop (P : List Nat) (n : Node) (d : Nat) :
    (insertLoop n P d).size ≤ n.size + P.length := by
  induction P generalizing n with
  | nil =>
    simp only [insertLoop, Node.size_mk, List.length_nil, Nat.add_zero, Node.size_eq]
    exact Nat.le_refl _
  | cons a R ih =>
    rcases h : n.edge a with _ | c
    · have hL : insertLoop n (a :: R) d = n.setEdge a (insertLoop Node.new R d) := by
        simp [insertLoop, h]
      by_cases h0 : a = 0
      · subst h0
        have he : n.edge0 = none := by simpa [Node.edge] using h
        have hc := ih Node.new
        have hn := Node.size_eq n
        rw [he, osize_none] at hn
        rw [Node.size_new] at hc
        rw [hL, Node.size_setEdge_zero]
        simp only [List.length_cons]
        omega
      · have he : n.edge1 = none := by simpa [Node.edge, h0] using h
        have hc := ih Node.new
        have hn := Node.size_eq n
        rw [he, osize_none] at hn
        rw [Node.size_new] at hc
        rw [hL, Node.size_setEdge_one n a _ h0]
        simp only [List.length_cons]
        omega
    · have hL : insertLoop n (a :: R) d = n.setEdge a (insertLoop c R d) := by
        simp [insertLoop, h]
      by_cases h0 : a = 0
      · subst h0
        have he : n.edge0 = some c := by simpa [Node.edge] using h
        have hc := ih c
        have hn := Node.size_eq n
        rw [he, osize_some] at hn
        rw [hL, Node.size_setEdge_zero]
        simp only [List.length_cons]
        omega
      · have he : n.edge1 = some c := by simpa [Node.edge, h0] using h
        have hc := ih c
        have hn := Node.size_eq n
        rw [he, osize_some] at hn
        rw [hL, Node.size_setEdge_one n a _ h0]
        simp only [List.length_cons]
        omega

/-! ## The lookup walk returns the last terminal seen along the path -/

theorem lastOr_cons (x : Nat) (l : List Nat) (d0 : Option Nat) :
    lastOr (x :: l) d0 = lastOr l (some x) := by
  cases l with
  | nil => rfl
  | cons y ys =>
    unfold lastOr
    rw [List.getLast?_cons_cons]
    rcases h : (y :: ys).getLast? with _ | z
    · simp at h
    · rfl

theorem matchesAlong_cons (n : Node) (b : Nat) (rest : List Nat) :
    matchesAlong n (b :: rest) =
      match n.edge b with
      | none => []
      | some c => (if c.is_terminal then c.dest.toList else []) ++ matchesAlong c rest := rfl

theorem matchesAlong_cons_none (n : Node) (b : Nat) (rest : List Nat)
    (h : n.edge b = none) : matchesAlong n (b :: rest) = [] := by
  rw [matchesAlong_cons, h]

theorem matchesAlong_cons_some (n c : Node) (b : Nat) (rest : List Nat)
    (h : n.edge b = some c) :
    matchesAlong n (b :: rest)
      = (if c.is_terminal then c.dest.toList else []) ++ matchesAlong c rest := by
  rw [matchesAlong_cons, h]

theorem lookupLoop_eq_lastOr (bits : List Nat) (n : Node) (d0 : Option Nat)
    (hwf : n.wfAll) (hb : BitsValid bits) :
    lookupLoop n bits d0 = lastOr (matchesAlong n bits) d0 := by
  induction bits generalizing n d0 with
  | nil => rfl
  | cons b rest ih =>
    have hbb : b < 2 := hb b (by simp)
    have hrest : BitsValid rest := fun x hx => hb x (by simp [hx])
    rcases h : n.edge b with _ | c
    · simp [lookupLoop, matchesAlong_cons, h, lastOr]
    · have hcwf : c.wfAll := wfAll_child n b c hwf hbb h
      have hstep : lookupLoop n (b :: rest) d0
          = lookupLoop c rest (if c.is_terminal then c.dest else d0) := by
        simp [lookupLoop, h]
      cases ht : c.is_terminal
      · have hif : (if c.is_terminal then c.dest else d0) = d0 := by simp [ht]
        have hif2 : (if c.is_terminal then c.dest.toList else []) = [] := by simp [ht]
        rw [hstep, hif, matchesAlong_cons_some n c b rest h, hif2, List.nil_append]
        exact ih c d0 hcwf hrest
      · have hds : c.dest.isSome = true := by
          have hv : BitsValid [b] := by
            intro x hx
            rw [List.mem_singleton] at hx
            subst hx
            exact hbb
          have hn : nodeAt n [b] = some c := by rw [nodeAt_cons, h]; rfl
          rw [hwf [b] c hv hn, ht]
        obtain ⟨x, hx⟩ := Option.isSome_iff_exists.mp hds
        have hif : (if c.is_terminal then c.dest else d0) = some x := by simp [ht, hx]
        have hif2 : (if c.is_terminal then c.dest.toList else []) = [x] := by simp [ht, hx]
        rw [hstep, hif, matchesAlong_cons_some n c b rest h, hif2,
          List.singleton_append, lastOr_cons]
        exact ih c (some x) hcwf hrest

theorem inits_filterMap_pathGet (bits : List Nat) (n : Node) :
    (bits.inits).filterMap (pathGet n) = (pathGet n []).toList ++ matchesAlong n bits := by
  induction bits generalizing n with
  | nil =>
    rw [show ∀ l : List Nat, l.inits = l.inits from fun _ => rfl]
    rcases h : pathGet n [] with _ | x <;>
      simp [show ([] : List Nat).inits = [[]] from rfl, List.filterMap_cons, h, matchesAlong]
  | cons b rest ih =>
    rw [List.inits_cons, List.filterMap_cons, List.filterMap_map]
    rcases h : n.edge b with _ | c
    · have hnil : (rest.inits).filterMap (pathGet n ∘ fun t => b :: t) = [] := by
        rw [List.filterMap_eq_nil_iff]
        intro q hq
        simp [Function.comp, pathGet, h]
      rw [hnil, matchesAlong_cons_none n b rest h]
      rcases hr : pathGet n [] with _ | x <;> simp [hr]
    · have hcomp : (rest.inits).filterMap (pathGet n ∘ fun t => b :: t)
          = (rest.inits).filterMap (pathGet c) := by
        apply List.filterMap_congr
        intro q hq
        simp [Function.comp, pathGet, h]
      rw [hcomp, ih c, matchesAlong_cons_some n c b rest h]
      have htl : (pathGet c []).toList = if c.is_terminal then c.dest.toList else [] := by
        cases ht : c.is_terminal <;> simp [pathGet, ht]
      rw [htl]
      rcases hr : pathGet n [] with _ | x <;> simp [hr]

theorem lookupLoop_eq_getLast (bits : List Nat) (n : Node)
    (hwf : n.wfAll) (hb : BitsValid bits) :
    lookupLoop n bits (pathGet n []) = ((bits.inits).filterMap (pathGet n)).getLast? := by
  rw [lookupLoop_eq_lastOr bits n _ hwf hb, inits_filterMap_pathGet]
  rcases hM : matchesAlong n bits with _ | ⟨y, M⟩
  · rcases h : pathGet n [] with _ | x <;> simp [lastOr, h]
  · rw [List.getLast?_append]
    rcases hg : (y :: M).getLast? with _ | z
    · simp at hg
    · simp [lastOr, hg]

/-! ## `pathGet` corollaries -/

theorem pathGet_new (p : List Nat) : pathGet Node.new p = none := by
  cases p with
  | nil => rfl
  | cons b r => simp [pathGet, Node.edge_new]

theorem pathGet_insertLoop (P : List Nat) (n : Node) (d : Nat) (p : List Nat)
    (hP : BitsValid P) (hp : BitsValid p) :
    pathGet (insertLoop n P d) p = if p = P then some d else pathGet n p := by
  by_cases h : p = P
  · subst h
    rw [pathGet_eq, (insertLoop_at_self p n d).1, (insertLoop_at_self p n d).2]
    simp
  · rw [pathGet_eq, pathGet_eq, (insertLoop_frame P n d p hP hp h).1,
      (insertLoop_frame P n d p hP hp h).2]
    simp [h]

theorem nil_mem_inits {α : Type} (l : List α) : ([] : List α) ∈ l.inits := by
  cases l with
  | nil => rw [show ([] : List α).inits = [[]] from rfl]; simp
  | cons a r => rw [List.inits_cons]; simp

/-- Off the inserted path, the whole subtree is unchanged by an insert. -/
theorem nodeAt_insertLoop_offPath (P : List Nat) (n : Node) (d : Nat) (p : List Nat)
    (hP : BitsValid P) (hp : BitsValid p) (hni : p ∉ P.inits) :
    nodeAt (insertLoop n P d) p = nodeAt n p := by
  induction P generalizing n p with
  | nil =>
    cases p with
    | nil =>
      exact absurd (by rw [show ([] : List Nat).inits = [[]] from rfl]; simp) hni
    | cons b r => simp only [insertLoop, nodeAt_cons, Node.edge_mk_fields]
  | cons a R ih =>
    have ha : a < 2 := hP a (by simp)
    have hRv : BitsValid R := fun x hx => hP x (by simp [hx])
    cases p with
    | nil => exact absurd (by rw [List.inits_cons]; simp) hni
    | cons b r =>
      have hb : b < 2 := hp b (by simp)
      have hrv : BitsValid r := fun x hx => hp x (by simp [hx])
      by_cases hba : b = a
      · subst hba
        have hrni : r ∉ R.inits := by
          intro hrin
          apply hni
          rw [List.inits_cons, List.mem_cons]
          right
          rw [List.mem_map]
          exact ⟨r, hrin, rfl⟩
        have hrnil : r ≠ [] := fun hr => hrni (hr ▸ nil_mem_inits R)
        rcases h : n.edge b with _ | c
        · have hL : insertLoop n (b :: R) d = n.setEdge b (insertLoop Node.new R d) := by
            simp [insertLoop, h]
          rw [hL, nodeAt_cons, Node.edge_setEdge_same, nodeAt_cons, h]
          show nodeAt (insertLoop Node.new R d) r = (none : Option Node)
          rw [ih Node.new r hRv hrv hrni, nodeAt_new r hrnil]
        · have hL : insertLoop n (b :: R) d = n.setEdge b (insertLoop c R d) := by
            simp [insertLoop, h]
          rw [hL, nodeAt_cons, Node.edge_setEdge_same, nodeAt_cons, h]
          show nodeAt (insertLoop c R d) r = nodeAt c r
          exact ih c r hRv hrv hrni
      · rcases h : n.edge a with _ | c <;>
          [rw [show insertLoop n (a :: R) d = n.setEdge a (insertLoop Node.new R d) by
            simp [insertLoop, h]];
           rw [show insertLoop n (a :: R) d = n.setEdge a (insertLoop c R d) by
            simp [insertLoop, h]]] <;>
          rw [nodeAt_cons, Node.edge_setEdge_other n a b _ ha hb hba, nodeAt_cons]

/-! ## Folding a list of routes into a table -/

theorem wfAll_foldl (rn : List (Nat × Nat × Nat)) (t : Table) (h : t.start.wfAll) :
    ((rn.foldl (fun t r => ⟨insertLoop t.start (prefixBits r.1 r.2.1) r.2.2⟩) t).start).wfAll := by
  induction rn generalizing t with
  | nil => exact h
  | cons r rs ih =>
    exact ih _ (wfAll_insertLoop _ _ _ (prefixBits_valid _ _) h)

theorem wfAll_buildTable (rn : List (Nat × Nat × Nat)) : (buildTable rn).start.wfAll :=
  wfAll_foldl rn Table.new wfAll_new

theorem pathGet_foldl (rn : List (Nat × Nat × Nat)) (t : Table) (p : List Nat)
    (hp : BitsValid p) :
    pathGet ((rn.foldl (fun t r => ⟨insertLoop t.start (prefixBits r.1 r.2.1) r.2.2⟩) t).start) p
      = rn.foldl (fun acc r => if prefixBits r.1 r.2.1 = p then some r.2.2 else acc)
          (pathGet t.start p) := by
  induction rn generalizing t with
  | nil => rfl
  | cons r rs ih =>
    rw [List.foldl_cons, List.foldl_cons, ih]
    congr 1
    show pathGet (insertLoop t.start (prefixBits r.1 r.2.1) r.2.2) p = _
    rw [pathGet_insertLoop _ _ _ _ (prefixBits_valid _ _) hp]
    by_cases h : p = prefixBits r.1 r.2.1
    · simp [h]
    · rw [if_neg h, if_neg (fun hh => h hh.symm)]

theorem pathGet_buildTable (rn : List (Nat × Nat × Nat)) (p : List Nat)
    (hp : BitsValid p) :
    pathGet (buildTable rn).start p = storedDest rn p := by
  unfold buildTable storedDest
  rw [pathGet_foldl rn Table.new p hp, show pathGet Table.new.start p = none from pathGet_new p]

/-- The central longest-prefix-match lemma at the level of parsed routes:
the lookup walk over a built table returns the destination stored for the
longest stored prefix of the query's bits. -/
theorem lookup_buildTable (rn : List (Nat × Nat × Nat)) (q : Nat) :
    lookupLoop (buildTable rn).start (ipToBitVec q)
        (if (buildTable rn).start.is_terminal then (buildTable rn).start.dest else none)
      = (((ipToBitVec q).inits).filterMap (storedDest rn)).getLast? := by
  have hd0 : (if (buildTable rn).start.is_terminal then (buildTable rn).start.dest else none)
      = pathGet (buildTable rn).start [] := rfl
  rw [hd0, lookupLoop_eq_getLast _ _ (wfAll_buildTable rn) (ipToBitVec_valid q)]
  apply congrArg
  apply List.filterMap_congr
  intro p hp
  have hpv : BitsValid p := by
    intro b hb
    exact ipToBitVec_valid q b (((List.mem_inits _ _).mp hp).sublist.subset hb)
  exact pathGet_buildTable rn p hpv

/-! ## Bridging string-level calls to parsed-route folds -/

theorem insert_range_ok (t : Table) (s e d : String) (sn en dn : Nat)
    (hs : parseIpv4 s = some sn) (he : parseIpv4 e = some en)
    (hd : parseIpv4 d = some dn) :
    t.insert_range s e d = (.ok (), ⟨insertLoop t.start (prefixBits sn en) dn⟩) := by
  unfold Table.insert_range
  rw [hs, he, hd]

theorem insert_range_badDest (t : Table) (s e d : String) (sn en : Nat)
    (hs : parseIpv4 s = some sn) (he : parseIpv4 e = some en)
    (hd : parseIpv4 d = none) :
    t.insert_range s e d = (.error .mk, ⟨insertWalk t.start (prefixBits sn en)⟩) := by
  unfold Table.insert_range
  rw [hs, he, hd]

theorem foldl_insert_eq (routes : List (String × String × String))
    (rn : List (Nat × Nat × Nat)) (h : routeVals routes = some rn) (t : Table) :
    routes.foldl (fun t r => (t.insert_range r.1 r.2.1 r.2.2).2) t
      = rn.foldl (fun t r => ⟨insertLoop t.start (prefixBits r.1 r.2.1) r.2.2⟩) t := by
  induction routes generalizing rn t with
  | nil =>
    unfold routeVals at h
    rw [Option.some_inj] at h
    subst h
    rfl
  | cons r rs ih =>
    rcases hp1 : parseIpv4 r.1 with _ | a
    · unfold routeVals at h
      rw [hp1] at h
      cases h
    · rcases hp2 : parseIpv4 r.2.1 with _ | b
      · unfold routeVals at h
        rw [hp1, hp2] at h
        cases h
      · rcases hp3 : parseIpv4 r.2.2 with _ | c
        · unfold routeVals at h
          rw [hp1, hp2, hp3] at h
          cases h
        · rcases hrv : routeVals rs with _ | vs
          · unfold routeVals at h
            rw [hp1, hp2, hp3, hrv] at h
            cases h
          · unfold routeVals at h
            rw [hp1, hp2, hp3, hrv, Option.some_inj] at h
            subst h
            rw [List.foldl_cons, List.foldl_cons,
              show (t.insert_range r.1 r.2.1 r.2.2).2
                = (⟨insertLoop t.start (prefixBits a b) c⟩ : Table) from
                congrArg Prod.snd (insert_range_ok t r.1 r.2.1 r.2.2 a b c hp1 hp2 hp3)]
            exact ih vs hrv _

theorem buildTableS_eq (routes : List (String × String × String))
    (rn : List (Nat × Nat × Nat)) (h : routeVals routes = some rn) :
    buildTableS routes = buildTable rn :=
  foldl_insert_eq routes rn h Table.new

/-! ## Claim theorems -/

/-- C2, counterexample: the claimed prefix-length formula
`32 - leading_zero_count(start XOR end)` does not match the code.  For
`start = 0.0.0.0` and `end = 0.0.0.1` the code produces 31 leading bits,
while the claimed formula gives `32 - 31 = 1`. -/
theorem range_formula_cex :
    ¬ ((prefixBits 0 1).length = 32 - leadingZeros32 (Nat.xor 0 1)) := by
  decide

/-- C2, amended: `prefix_of` computes the prefix length as
`leading_zero_count(start XOR end)` (not `32 -` that count) over the
32-bit unsigned representations, and returns exactly that many leading
bits of `start` as an ordered sequence of 0/1 values, most-significant
bit first. -/
theorem range_formula_amended (s e : Nat) :
    (prefixBits s e).length = leadingZeros32 (Nat.xor s e)
    ∧ prefixBits s e = (ipToBitVec s).take (leadingZeros32 (Nat.xor s e))
    ∧ BitsValid (prefixBits s e) :=
  ⟨prefixBits_length s e, prefixBits_eq_take s e, prefixBits_valid s e⟩

/-- C3: for every address `a`, `prefix_of(a, a)` yields all 32 bits of
`a`, and `prefix_of(0.0.0.0, 255.255.255.255)` yields the empty sequence. -/
theorem range_edge_cases (a : Nat) :
    prefixBits a a = ipToBitVec a ∧ prefixBits 0 4294967295 = [] := by
  constructor
  · unfold prefixBits ipToBitVec
    have hx : Nat.xor a a = 0 := Nat.xor_self a
    rw [hx, show leadingZeros32 0 = 32 from rfl]
  · decide

/-- C5: `insert_range` and `lookup` fail exactly when one of the supplied
strings fails to parse as a dotted-quad IPv4 address; the only error value
is `AddrParseError.mk`, and an unmatched lookup is the normal `.ok none`
result, not an error. -/
theorem api_error_iff (t : Table) (s e d q : String) :
    ((t.insert_range s e d).1 = .ok ()
        ↔ ((parseIpv4 s).isSome = true ∧ (parseIpv4 e).isSome = true
            ∧ (parseIpv4 d).isSome = true))
    ∧ (∀ err, (t.insert_range s e d).1 = .error err → err = .mk)
    ∧ ((∃ r, (t.lookup q).1 = .ok r) ↔ (parseIpv4 q).isSome = true)
    ∧ (∀ err, (t.lookup q).1 = .error err → err = .mk) := by
  refine ⟨?_, ?_, ?_, ?_⟩
  · rcases h1 : parseIpv4 s with _ | sn <;>
      rcases h2 : parseIpv4 e with _ | en <;>
      rcases h3 : parseIpv4 d with _ | dn <;>
      simp [Table.insert_range, h1, h2, h3]
  · intro err _
    cases err
    rfl
  · rcases h4 : parseIpv4 q with _ | qn <;> simp [Table.lookup, h4]
  · intro err _
    cases err
    rfl

/-- String-level form of the central lemma: a table built by successful
`insert_range` calls looks up the longest stored matching prefix. -/
theorem lookupS_buildTable (routes : List (String × String × String))
    (rn : List (Nat × Nat × Nat)) (hr : routeVals routes = some rn)
    (q : String) (qn : Nat) (hq : parseIpv4 q = some qn) :
    ((buildTableS routes).lookup q).1
      = .ok ((((ipToBitVec qn).inits).filterMap (storedDest rn)).getLast?) := by
  rw [buildTableS_eq routes rn hr]
  unfold Table.lookup
  rw [hq]
  exact congrArg Except.ok (lookup_buildTable rn qn)

/-- C1: longest-prefix-match correctness.  For every sequence of
successful `insert_range` calls (all strings parse, witnessed by
`routeVals`) and every valid query address, `lookup` returns the
destination associated (last write wins) with the longest stored prefix
that is a leading-bit prefix of the query's 32-bit sequence, and `none`
when no stored prefix matches — in particular `.ok none` on a table with
no insertions. -/
theorem lookup_longest_match (routes : List (String × String × String))
    (rn : List (Nat × Nat × Nat)) (hr : routeVals routes = some rn)
    (q : String) (qn : Nat) (hq : parseIpv4 q = some qn) :
    ((buildTableS routes).lookup q).1
      = .ok ((((ipToBitVec qn).inits).filterMap (storedDest rn)).getLast?) :=
  lookupS_buildTable routes rn hr q qn hq

/-- Witness for C1: one default route inserted, a query matching it. -/
theorem lookup_longest_match_witness :
    ((buildTableS [("0.0.0.0", "255.255.255.255", "0.0.0.1")]).lookup "10.2.3.4").1
      = .ok (some 1) := by
  rw [lookup_longest_match [("0.0.0.0", "255.255.255.255", "0.0.0.1")]
    [(0, 4294967295, 1)] (by decide) "10.2.3.4" 167904004 (by decide)]
  decide

/-- C4, counterexample: insertion order is NOT commutative for every pair
of routes.  Two routes whose ranges reduce to the same exact prefix but
carry different destinations give order-dependent lookup results (last
write wins). -/
theorem insert_order_cex :
    ((((Table.new.insert_range "0.0.0.0" "0.0.0.0" "0.0.0.1").2).insert_range
        "0.0.0.0" "0.0.0.0" "0.0.0.2").2.lookup "0.0.0.0").1
      ≠ ((((Table.new.insert_range "0.0.0.0" "0.0.0.0" "0.0.0.2").2).insert_range
        "0.0.0.0" "0.0.0.0" "0.0.0.1").2.lookup "0.0.0.0").1 := by
  decide

/-- C4, amended: for every two valid routes whose start/end pairs reduce
to distinct prefixes, and every valid query, inserting them into a fresh
table in either order yields the same lookup result. -/
theorem insert_order_comm (a1 a2 a3 b1 b2 b3 q : String)
    (an1 an2 an3 bn1 bn2 bn3 qn : Nat)
    (ha1 : parseIpv4 a1 = some an1) (ha2 : parseIpv4 a2 = some an2)
    (ha3 : parseIpv4 a3 = some an3)
    (hb1 : parseIpv4 b1 = some bn1) (hb2 : parseIpv4 b2 = some bn2)
    (hb3 : parseIpv4 b3 = some bn3)
    (hq : parseIpv4 q = some qn)
    (hne : prefixBits an1 an2 ≠ prefixBits bn1 bn2) :
    (((Table.new.insert_range a1 a2 a3).2.insert_range b1 b2 b3).2.lookup q).1
      = (((Table.new.insert_range b1 b2 b3).2.insert_range a1 a2 a3).2.lookup q).1 := by
  have hrv1 : routeVals [(a1, a2, a3), (b1, b2, b3)]
      = some [(an1, an2, an3), (bn1, bn2, bn3)] := by
    simp [routeVals, ha1, ha2, ha3, hb1, hb2, hb3]
  have hrv2 : routeVals [(b1, b2, b3), (a1, a2, a3)]
      = some [(bn1, bn2, bn3), (an1, an2, an3)] := by
    simp [routeVals, ha1, ha2, ha3, hb1, hb2, hb3]
  have hT1 : ((Table.new.insert_range a1 a2 a3).2.insert_range b1 b2 b3).2
      = buildTableS [(a1, a2, a3), (b1, b2, b3)] := rfl
  have hT2 : ((Table.new.insert_range b1 b2 b3).2.insert_range a1 a2 a3).2
      = buildTableS [(b1, b2, b3), (a1, a2, a3)] := rfl
  rw [hT1, hT2,
    lookupS_buildTable _ _ hrv1 q qn hq,
    lookupS_buildTable _ _ hrv2 q qn hq]
  have hsw : ∀ p, storedDest [(an1, an2, an3), (bn1, bn2, bn3)] p
      = storedDest [(bn1, bn2, bn3), (an1, an2, an3)] p := by
    intro p
    unfold storedDest
    simp only [List.foldl_cons, List.foldl_nil]
    by_cases h1 : prefixBits an1 an2 = p <;> by_cases h2 : prefixBits bn1 bn2 = p
    · exact absurd (h1.trans h2.symm) hne
    · simp [h1, h2]
    · simp [h1, h2]
    · simp [h1, h2]
  rw [List.filterMap_congr (fun p _ => hsw p)]

/-- Witness for C4 (amended): two distinct-prefix routes, both orders. -/
theorem insert_order_comm_witness :
    (((Table.new.insert_range "0.0.0.0" "127.255.255.255" "1.1.1.1").2.insert_range
        "128.0.0.0" "255.255.255.255" "2.2.2.2").2.lookup "10.0.0.1").1
      = (((Table.new.insert_range "128.0.0.0" "255.255.255.255" "2.2.2.2").2.insert_range
        "0.0.0.0" "127.255.255.255" "1.1.1.1").2.lookup "10.0.0.1").1 :=
  insert_order_comm "0.0.0.0" "127.255.255.255" "1.1.1.1"
    "128.0.0.0" "255.255.255.255" "2.2.2.2" "10.0.0.1"
    0 2147483647 16843009 2147483648 4294967295 33686018 167772161
    (by decide) (by decide) (by decide) (by decide) (by decide) (by decide)
    (by decide) (by decide)

/-- Witness for C5: with four valid strings the insert succeeds. -/
theorem api_error_iff_witness :
    (Table.new.insert_range "1.2.3.4" "1.2.3.4" "1.2.3.4").1 = .ok () :=
  (api_error_iff Table.new "1.2.3.4" "1.2.3.4" "1.2.3.4" "5.6.7.8").1.mpr
    (by decide)

/-- C6: non-atomicity of `insert_range` on destination parse failure.
With valid `start`/`end` and an invalid `dest`, the call returns the parse
error, but the nodes along the prefix path have been created, while every
node's `is_terminal` and `dest` fields — in particular the endpoint's —
are left unchanged (the terminal marking is not applied). -/
theorem insert_nonatomic (t : Table) (s e d : String) (sn en : Nat)
    (hs : parseIpv4 s = some sn) (he : parseIpv4 e = some en)
    (hd : parseIpv4 d = none) :
    (t.insert_range s e d).1 = .error .mk
    ∧ (∀ p ∈ (prefixBits sn en).inits,
        (nodeAt (t.insert_range s e d).2.start p).isSome = true)
    ∧ (∀ p, BitsValid p →
        termD (t.insert_range s e d).2.start p = termD t.start p
        ∧ destD (t.insert_range s e d).2.start p = destD t.start p) := by
  have hw := insert_range_badDest t s e d sn en hs he hd
  have hsnd : (t.insert_range s e d).2
      = (⟨insertWalk t.start (prefixBits sn en)⟩ : Table) := congrArg Prod.snd hw
  refine ⟨congrArg Prod.fst hw, ?_, ?_⟩
  · rw [hsnd]
    exact nodeAt_insertWalk_path (prefixBits sn en) t.start
  · intro p hp
    rw [hsnd]
    exact insertWalk_frame (prefixBits sn en) t.start p (prefixBits_valid sn en) hp

/-- Witness for C6: valid endpoints, unparsable destination. -/
theorem insert_nonatomic_witness :
    (Table.new.insert_range "1.2.3.4" "1.2.3.5" "rotab").1 = .error .mk
    ∧ (nodeAt (Table.new.insert_range "1.2.3.4" "1.2.3.5" "rotab").2.start
        (prefixBits 16909060 16909061)).isSome = true
    ∧ termD (Table.new.insert_range "1.2.3.4" "1.2.3.5" "rotab").2.start
        (prefixBits 16909060 16909061) = false :=
  have h := insert_nonatomic Table.new "1.2.3.4" "1.2.3.5" "rotab"
    16909060 16909061 (by decide) (by decide) (by decide)
  ⟨h.1,
   h.2.1 (prefixBits 16909060 16909061) (by decide),
   by rw [(h.2.2 (prefixBits 16909060 16909061) (prefixBits_valid _ _)).1]; decide⟩

/-- C7: in every table reachable from `Table::new` by any sequence of
`insert_range` calls (successful or failing) and `lookup` calls, every
node satisfies `dest.isSome = is_terminal`; and the fresh table's root is
not terminal and has no children. -/
theorem table_invariant (t : Table) (h : Reachable t) :
    t.start.wfAll
    ∧ Table.new.start.is_terminal = false
    ∧ Table.new.start.edge 0 = none
    ∧ Table.new.start.edge 1 = none := by
  refine ⟨?_, rfl, Node.edge_new 0, Node.edge_new 1⟩
  induction h with
  | new => exact wfAll_new
  | ins t s e d _ ih =>
    rcases h1 : parseIpv4 s with _ | sn
    · have : (t.insert_range s e d).2 = t := by
        unfold Table.insert_range
        rw [h1]
      rw [this]
      exact ih
    · rcases h2 : parseIpv4 e with _ | en
      · have : (t.insert_range s e d).2 = t := by
          unfold Table.insert_range
          rw [h1, h2]
        rw [this]
        exact ih
      · rcases h3 : parseIpv4 d with _ | dn
        · have hsnd : (t.insert_range s e d).2
              = (⟨insertWalk t.start (prefixBits sn en)⟩ : Table) :=
            congrArg Prod.snd (insert_range_badDest t s e d sn en h1 h2 h3)
          rw [hsnd]
          exact wfAll_insertWalk _ _ (prefixBits_valid sn en) ih
        · have hsnd : (t.insert_range s e d).2
              = (⟨insertLoop t.start (prefixBits sn en) dn⟩ : Table) :=
            congrArg Prod.snd (insert_range_ok t s e d sn en dn h1 h2 h3)
          rw [hsnd]
          exact wfAll_insertLoop _ _ _ (prefixBits_valid sn en) ih
  | look t q _ ih =>
    rcases h1 : parseIpv4 q with _ | qn <;>
      [rw [show (t.lookup q).2 = t by unfold Table.lookup; rw [h1]];
       rw [show (t.lookup q).2 = t by unfold Table.lookup; rw [h1]]] <;>
      exact ih

/-- Witness for C7: the freshly created table. -/
theorem table_invariant_witness :
    Table.new.start.wfAll
    ∧ Table.new.start.is_terminal = false
    ∧ Table.new.start.edge 0 = none
    ∧ Table.new.start.edge 1 = none :=
  table_invariant Table.new Reachable.new

/-- C9: frame property of a successful `insert_range`.  Every node present
before is still present; subtrees off the inserted prefix path are
entirely unchanged; terminal flags and destinations are unchanged
everywhere except at the endpoint of the inserted prefix, which becomes
terminal with the new destination; and at most `len(prefix_bits)` nodes
are added. -/
theorem insert_frame (t : Table) (s e d : String) (sn en dn : Nat)
    (hs : parseIpv4 s = some sn) (he : parseIpv4 e = some en)
    (hd : parseIpv4 d = some dn) :
    (∀ p, BitsValid p → (nodeAt t.start p).isSome = true →
        (nodeAt (t.insert_range s e d).2.start p).isSome = true)
    ∧ (∀ p, BitsValid p → p ∉ (prefixBits sn en).inits →
        nodeAt (t.insert_range s e d).2.start p = nodeAt t.start p)
    ∧ (∀ p, BitsValid p → p ≠ prefixBits sn en →
        termD (t.insert_range s e d).2.start p = termD t.start p
        ∧ destD (t.insert_range s e d).2.start p = destD t.start p)
    ∧ termD (t.insert_range s e d).2.start (prefixBits sn en) = true
    ∧ destD (t.insert_range s e d).2.start (prefixBits sn en) = some dn
    ∧ (t.insert_range s e d).2.start.size
        ≤ t.start.size + (prefixBits sn en).length := by
  have hsnd : (t.insert_range s e d).2
      = (⟨insertLoop t.start (prefixBits sn en) dn⟩ : Table) :=
    congrArg Prod.snd (insert_range_ok t s e d sn en dn hs he hd)
  rw [hsnd]
  refine ⟨?_, ?_, ?_, (insertLoop_at_self _ _ _).1, (insertLoop_at_self _ _ _).2, ?_⟩
  · intro p hp hsome
    exact nodeAt_isSome_insertLoop (prefixBits sn en) t.start dn p
      (prefixBits_valid sn en) hp hsome
  · intro p hp hni
    exact nodeAt_insertLoop_offPath (prefixBits sn en) t.start dn p
      (prefixBits_valid sn en) hp hni
  · intro p hp hne
    exact insertLoop_frame (prefixBits sn en) t.start dn p
      (prefixBits_valid sn en) hp hne
  · exact size_insertLoop (prefixBits sn en) t.start dn

/-- Witness for C9: a successful insert on the fresh table. -/
theorem insert_frame_witness :
    termD (Table.new.insert_range "1.2.3.4" "1.2.3.5" "9.9.9.9").2.start
        (prefixBits 16909060 16909061) = true
    ∧ destD (Table.new.insert_range "1.2.3.4" "1.2.3.5" "9.9.9.9").2.start
        (prefixBits 16909060 16909061) = some 151587081
    ∧ (Table.new.insert_range "1.2.3.4" "1.2.3.5" "9.9.9.9").2.start.size
        ≤ Table.new.start.size + (prefixBits 16909060 16909061).length :=
  have h := insert_frame Table.new "1.2.3.4" "1.2.3.5" "9.9.9.9"
    16909060 16909061 151587081 (by decide) (by decide) (by decide)
  ⟨h.2.2.2.1, h.2.2.2.2.1, h.2.2.2.2.2⟩

/-- Helper for C8: if the stored-routes map holds exactly one key `P`, and
`P` is a leading-bit prefix of `bits`, the longest (indeed only) match is
`P`'s destination. -/
theorem filterMap_single_key (bits : List Nat) (P : List Nat) (d : Nat)
    (htake : bits.take P.length = P) (hlen : P.length ≤ bits.length) :
    ((bits.inits).filterMap (fun p => if P = p then some d else none)).getLast?
      = some d := by
  induction bits generalizing P with
  | nil =>
    have hP : P = [] := List.eq_nil_of_length_eq_zero
      (Nat.le_antisymm (by simpa using hlen) (Nat.zero_le _))
    subst hP
    rw [show ([] : List Nat).inits = [[]] from rfl, List.filterMap_cons]
    simp
  | cons b bs ih =>
    cases P with
    | nil =>
      have hz : (bs.inits).filterMap
          ((fun p => if ([] : List Nat) = p then some d else none) ∘ fun t => b :: t)
          = [] := by
        rw [List.filterMap_eq_nil_iff]
        intro q _
        simp [Function.comp]
      rw [List.inits_cons, List.filterMap_cons, List.filterMap_map, hz]
      simp
    | cons c P' =>
      have hc : c = b := by
        rw [List.length_cons, List.take_succ_cons] at htake
        exact (List.cons_eq_cons.mp htake).1.symm
      subst hc
      have htake' : bs.take P'.length = P' := by
        rw [List.length_cons, List.take_succ_cons] at htake
        exact (List.cons_eq_cons.mp htake).2
      have hlen' : P'.length ≤ bs.length := by
        rw [List.length_cons, List.length_cons] at hlen
        omega
      rw [List.inits_cons, List.filterMap_cons, List.filterMap_map]
      have hcong : ∀ q ∈ bs.inits,
          ((fun p => if c :: P' = p then some d else none) ∘ fun t => c :: t) q
            = (fun p => if P' = p then some d else none) q := by
        intro q _
        simp [Function.comp]
      rw [List.filterMap_congr hcong]
      have hhead : (if c :: P' = ([] : List Nat) then some d else none) = none := by
        simp
      simp only [hhead]
      exact ih P' htake' hlen'

/-- C8: overwrite on duplicate insert.  Two valid routes whose ranges
reduce to the same exact prefix both insert without error into a fresh
table, and a lookup whose longest (here: only) match is that prefix
returns the destination of the second insertion. -/
theorem overwrite_duplicate (s1 e1 d1 s2 e2 d2 q : String)
    (sn1 en1 dn1 sn2 en2 dn2 qn : Nat)
    (h1 : parseIpv4 s1 = some sn1) (h2 : parseIpv4 e1 = some en1)
    (h3 : parseIpv4 d1 = some dn1)
    (h4 : parseIpv4 s2 = some sn2) (h5 : parseIpv4 e2 = some en2)
    (h6 : parseIpv4 d2 = some dn2)
    (hq : parseIpv4 q = some qn)
    (hpp : prefixBits sn1 en1 = prefixBits sn2 en2)
    (hm : (ipToBitVec qn).take (prefixBits sn2 en2).length = prefixBits sn2 en2) :
    (Table.new.insert_range s1 e1 d1).1 = .ok ()
    ∧ ((Table.new.insert_range s1 e1 d1).2.insert_range s2 e2 d2).1 = .ok ()
    ∧ (((Table.new.insert_range s1 e1 d1).2.insert_range s2 e2 d2).2.lookup q).1
        = .ok (some dn2) := by
  refine ⟨congrArg Prod.fst (insert_range_ok _ _ _ _ _ _ _ h1 h2 h3),
    congrArg Prod.fst (insert_range_ok _ _ _ _ _ _ _ h4 h5 h6), ?_⟩
  have hrv : routeVals [(s1, e1, d1), (s2, e2, d2)]
      = some [(sn1, en1, dn1), (sn2, en2, dn2)] := by
    simp [routeVals, h1, h2, h3, h4, h5, h6]
  have hT : ((Table.new.insert_range s1 e1 d1).2.insert_range s2 e2 d2).2
      = buildTableS [(s1, e1, d1), (s2, e2, d2)] := rfl
  rw [hT, lookupS_buildTable _ _ hrv q qn hq]
  have hsd : ∀ p, storedDest [(sn1, en1, dn1), (sn2, en2, dn2)] p
      = if prefixBits sn2 en2 = p then some dn2 else none := by
    intro p
    unfold storedDest
    simp only [List.foldl_cons, List.foldl_nil]
    by_cases hp2 : prefixBits sn2 en2 = p
    · simp [hp2]
    · rw [hpp]
      simp [hp2]
  rw [List.filterMap_congr (fun p _ => hsd p)]
  rw [filterMap_single_key (ipToBitVec qn) (prefixBits sn2 en2) dn2 hm
    (by rw [ipToBitVec_length, prefixBits_length]; exact leadingZeros32_le _)]

/-- Witness for C8: the same host route inserted twice with different
destinations; the exact query returns the second destination. -/
theorem overwrite_duplicate_witness :
    (Table.new.insert_range "1.2.3.4" "1.2.3.4" "9.9.9.9").1 = .ok ()
    ∧ ((Table.new.insert_range "1.2.3.4" "1.2.3.4" "9.9.9.9").2.insert_range
        "1.2.3.4" "1.2.3.4" "8.8.8.8").1 = .ok ()
    ∧ (((Table.new.insert_range "1.2.3.4" "1.2.3.4" "9.9.9.9").2.insert_range
        "1.2.3.4" "1.2.3.4" "8.8.8.8").2.lookup "1.2.3.4").1 = .ok (some 134744072) :=
  overwrite_duplicate "1.2.3.4" "1.2.3.4" "9.9.9.9" "1.2.3.4" "1.2.3.4" "8.8.8.8"
    "1.2.3.4" 16909060 16909060 151587081 16909060 16909060 134744072 16909060
    (by decide) (by decide) (by decide) (by decide) (by decide) (by decide)
    (by decide) (by decide) (by decide)

/-- C10: `lookup` is read-only — the table after a `lookup` call is the
table before it (the source takes `&self` and never mutates), so two
consecutive lookups of the same query return the same result. -/
theorem lookup_readonly (t : Table) (q : String) :
    (t.lookup q).2 = t ∧ (t.lookup q).1 = ((t.lookup q).2.lookup q).1 := by
  rcases h : parseIpv4 q with _ | v <;> simp [Table.lookup, h]

end Rotab
